import Mathlib

/-!
Shallow embedding of the flashcard scheduling core (`src/algorithm.ts`).

Flashcards are compared by identity in the TypeScript code (they are used as
`Set`/`Map` keys); we model identity with a numeric `id`, and keep the `front`
text (as a list of characters) because `getHint` reads it.

JavaScript `Set` objects are insertion-ordered collections without duplicates;
we model a set value as a duplicate-free ordered list.  `Set.add` appends a new
element at the end, `Set.delete` removes it, `Set.has` is membership.

JavaScript `Map` objects are insertion-ordered key-value stores with unique
keys; we model a map value as an ordered association list.  `Map.set` replaces
the value of an existing key in place, otherwise appends the new entry at the
end; `Map.delete` removes the entry; `Map.get` looks the key up; iteration
(`entries()`, `for..of`) walks the list in order.

Two models of `update` appear below:
* `update` is the purely functional model of the *returned* map's contents
  (used for the claims about the result of `update`);
* `updateImpl` is a heap-passing model that also tracks the identity of the
  `Set` objects, because the real code copies the map shallowly
  (`new Map(buckets)`) and then mutates the shared inner sets in place — this
  model is needed to settle the frame/aliasing claim.
-/

structure Flashcard where
  id : Nat
  front : List Char
  deriving DecidableEq, Repr

inductive AnswerDifficulty where
  | Wrong
  | Hard
  | Easy
  deriving DecidableEq, Repr

abbrev CardSet := List Flashcard

abbrev BucketMap := List (Nat × CardSet)

namespace JsSet

/-- JS `Set.prototype.has`. -/
def has (s : CardSet) (c : Flashcard) : Bool :=
  s.contains c

/-- JS `Set.prototype.add`: appends at the end if not already present. -/
def add (s : CardSet) (c : Flashcard) : CardSet :=
  if s.contains c then s else s ++ [c]

/-- JS `Set.prototype.delete`: removes the element (sets hold no duplicates). -/
def del (s : CardSet) (c : Flashcard) : CardSet :=
  s.filter (fun x => x ≠ c)

end JsSet

/-- JS `Map.prototype.get`. -/
def mapGet {α β : Type} [DecidableEq α] : List (α × β) → α → Option β
  | [], _ => none
  | p :: rest, k => if p.1 = k then some p.2 else mapGet rest k

/-- JS `Map.prototype.set`: replaces the value of an existing key in place,
otherwise appends the entry at the end. -/
def mapSet {α β : Type} [DecidableEq α] : List (α × β) → α → β → List (α × β)
  | [], k, v => [(k, v)]
  | p :: rest, k, v => if p.1 = k then (k, v) :: rest else p :: mapSet rest k v

/-- JS `Map.prototype.delete`: removes the entry with the given key. -/
def mapDelete {α β : Type} [DecidableEq α] : List (α × β) → α → List (α × β)
  | [], _ => []
  | p :: rest, k => if p.1 = k then rest else p :: mapDelete rest k

/-- The `lastbucket` computation of `toBucketSets`: starts from `0` and takes
every key that is `≥` the running value. -/
def lastbucket (buckets : BucketMap) : Nat :=
  buckets.foldl (fun acc p => if p.1 ≥ acc then p.1 else acc) 0

/-- `toBucketSets` from `src/algorithm.ts`: builds an array of
`lastbucket + 1` empty sets (note: also when the map is empty), then writes
each map entry at its key's index. -/
def toBucketSets (buckets : BucketMap) : List CardSet :=
  let array := List.replicate (lastbucket buckets + 1) ([] : CardSet)
  buckets.foldl (fun arr p => arr.set p.1 p.2) array

/-- `practice` from `src/algorithm.ts`: `dayNumber = day + 1`; every bucket
index `i` with `dayNumber % 2^i = 0` has its cards added to the result set.
(The JS truthiness guard `buckets[bucketIndex] &&` is always true on a dense
array without holes, which is what the model's list represents.) -/
def practice (buckets : List CardSet) (day : Nat) : CardSet :=
  let dayNumber := day + 1
  (List.range buckets.length).foldl
    (fun acc i =>
      if dayNumber % 2 ^ i = 0 then
        (buckets.getD i []).foldl (fun a c => JsSet.add a c) acc
      else acc)
    []

/-- The membership scan of `update`: first map entry (in insertion order)
whose set contains the card. -/
def findCurrentBucket : BucketMap → Flashcard → Option Nat
  | [], _ => none
  | p :: rest, c => if JsSet.has p.2 c then some p.1 else findCurrentBucket rest c

/-- The destination-bucket computation of `update` (`Nat` subtraction already
truncates at `0`, matching `Math.max(0, currentBucket - 1)`). -/
def destBucket (currentBucket : Nat) : AnswerDifficulty → Nat
  | .Easy => currentBucket + 1
  | .Hard => currentBucket - 1
  | .Wrong => 0

/-- Purely functional model of the map returned by `update` from
`src/algorithm.ts`: scan for the card's bucket (unchanged copy if absent),
remove the card from that set — dropping the key if the set becomes empty —
then add the card to the destination bucket's set, creating it if absent. -/
def update (buckets : BucketMap) (card : Flashcard)
    (difficulty : AnswerDifficulty) : BucketMap :=
  match findCurrentBucket buckets card with
  | none => buckets
  | some currentBucket =>
    let currentCards := JsSet.del ((mapGet buckets currentBucket).getD []) card
    let m1 := if currentCards.length = 0 then mapDelete buckets currentBucket
              else mapSet buckets currentBucket currentCards
    let newBucket := destBucket currentBucket difficulty
    let newCards := JsSet.add ((mapGet m1 newBucket).getD []) card
    mapSet m1 newBucket newCards

/-- `getHint` from `src/algorithm.ts`: empty front gives the empty string;
otherwise the first `ceil(len / 2)` characters are shown and the rest are
replaced by underscores (`(len + 1) / 2` is `ceil(len / 2)` on `Nat`). -/
def getHint (card : Flashcard) : List Char :=
  if card.front.length = 0 then []
  else
    let hintLength := (card.front.length + 1) / 2
    card.front.take hintLength ++
      List.replicate (card.front.length - hintLength) '_'

structure HistoryEntry where
  card : Flashcard
  difficulty : AnswerDifficulty
  deriving DecidableEq, Repr

structure ProgressStats where
  totalCards : Nat
  cardsByBucket : List (Nat × Nat)
  successRate : ℚ
  hardestCards : List Flashcard
  deriving DecidableEq, Repr

/-- The `wrongCounts` accumulation of `computeProgress`: walk the history and,
for each `Wrong` entry, bump the card's count in the map (`get`/`set`),
starting it at `1` when first seen. -/
def wrongCounts (history : List HistoryEntry) : List (Flashcard × Nat) :=
  history.foldl
    (fun acc e =>
      if e.difficulty = .Wrong then
        let count := (mapGet acc e.card).getD 0
        mapSet acc e.card (count + 1)
      else acc)
    []

/-- Stable insertion of an entry into a list sorted by count, descending:
the entry goes after every element whose count is `≥` its own. -/
def insertDesc (p : Flashcard × Nat) : List (Flashcard × Nat) → List (Flashcard × Nat)
  | [] => [p]
  | q :: rest => if q.2 ≥ p.2 then q :: insertDesc p rest else p :: q :: rest

/-- Model of `Array.prototype.sort` with comparator `(a, b) => b[1] - a[1]`:
a stable sort, descending by count (JS array sort is stable per ES2019), as a
left-to-right stable insertion sort. -/
def sortDesc (l : List (Flashcard × Nat)) : List (Flashcard × Nat) :=
  l.foldl (fun acc p => insertDesc p acc) []

/-- `computeProgress` from `src/algorithm.ts`. -/
def computeProgress (buckets : BucketMap) (history : List HistoryEntry) :
    ProgressStats :=
  let counts := buckets.foldl
    (fun acc p => (acc.1 + p.2.length, mapSet acc.2 p.1 p.2.length))
    ((0 : Nat), ([] : List (Nat × Nat)))
  let successCount : Nat := history.foldl
    (fun n e =>
      if e.difficulty = .Easy ∨ e.difficulty = .Hard then n + 1 else n)
    0
  let successRate : ℚ :=
    if history.length > 0 then (successCount : ℚ) / (history.length : ℚ) else 0
  let hardestCards := ((sortDesc (wrongCounts history)).take 3).map (fun p => p.1)
  { totalCards := counts.1
    cardsByBucket := counts.2
    successRate := successRate
    hardestCards := hardestCards }

/-! ### Heap-passing model of `update`

The TypeScript `update` begins with `const newBuckets = new Map(buckets)`, a
*shallow* copy: the copy holds the same `Set` object references as the
caller's map.  The subsequent `currentCards.delete(card)` and
`newCards.add(card)` therefore mutate set objects that the caller's map still
references.  To express this we model set objects as references into a heap
(`SetHeap`, a list of set contents indexed by reference number) and a JS map
as an association list from bucket numbers to set references. -/

abbrev SetRef := Nat

/-- The heap of JS `Set` objects: index `r` holds the current members of the
set object with reference `r`. -/
structure SetHeap where
  sets : List CardSet
  deriving DecidableEq, Repr

/-- Dereference a set object. -/
def SetHeap.get (h : SetHeap) (r : SetRef) : CardSet :=
  h.sets.getD r []

/-- Overwrite the contents of an existing set object (in-place mutation). -/
def SetHeap.write (h : SetHeap) (r : SetRef) (v : CardSet) : SetHeap :=
  ⟨h.sets.set r v⟩

/-- Allocate a fresh set object (`new Set()` plus its initial contents). -/
def SetHeap.alloc (h : SetHeap) (v : CardSet) : SetHeap × SetRef :=
  (⟨h.sets ++ [v]⟩, h.sets.length)

/-- A JS `Map<number, Set<Flashcard>>` value: an insertion-ordered association
list from bucket numbers to set-object references. -/
abbrev RefMap := List (Nat × SetRef)

/-- Heap-passing model of `update` from `src/algorithm.ts`, line by line:
`new Map(buckets)` shares the set references; the membership scan walks the
entries in order; `currentCards.delete(card)` writes through the shared
reference; an empty set's key is deleted from the copy only; `newCards` is
either the existing destination set object (mutated by `add`) or a freshly
allocated set. Returns the final heap and the returned map. -/
def updateImpl (heap : SetHeap) (buckets : RefMap) (card : Flashcard)
    (difficulty : AnswerDifficulty) : SetHeap × RefMap :=
  let newBuckets := buckets
  match newBuckets.find? (fun p => JsSet.has (heap.get p.2) card) with
  | none => (heap, newBuckets)
  | some (currentBucket, currentRef) =>
    let heap1 := heap.write currentRef (JsSet.del (heap.get currentRef) card)
    let m1 := if (heap1.get currentRef).length = 0
              then mapDelete newBuckets currentBucket
              else newBuckets
    let newBucket := destBucket currentBucket difficulty
    match mapGet m1 newBucket with
    | some destRef =>
      (heap1.write destRef (JsSet.add (heap1.get destRef) card), m1)
    | none =>
      let alloc := heap1.alloc (JsSet.add [] card)
      (alloc.1, mapSet m1 newBucket alloc.2)

/-! ### Specification-side counting functions for `computeProgress` -/

/-- Whether a history entry records a Wrong judgment for card `c`. -/
def isWrongFor (c : Flashcard) (e : HistoryEntry) : Bool :=
  decide (e.card = c ∧ e.difficulty = AnswerDifficulty.Wrong)

/-- Number of Wrong judgments for card `c` in the history. -/
def wrongCountOf (c : Flashcard) (history : List HistoryEntry) : Nat :=
  history.countP (isWrongFor c)

/-- Index of the first Wrong judgment for card `c` in the history
(`history.length` when there is none). -/
def firstWrongIdx (c : Flashcard) (history : List HistoryEntry) : Nat :=
  history.findIdx (isWrongFor c)

/-- Index of the first entry mentioning card `c` in the history, regardless
of the judgment (`history.length` when there is none). -/
def firstOccurrenceIdx (c : Flashcard) (history : List HistoryEntry) : Nat :=
  history.findIdx (fun e => decide (e.card = c))

/-! ### Toolkit: lemmas about the JS `Set` and `Map` models -/

namespace JsSet

theorem mem_add {s : CardSet} {c x : Flashcard} :
    x ∈ add s c ↔ x ∈ s ∨ x = c := by
  unfold add
  by_cases h : s.contains c = true
  · rw [if_pos h]
    have hc : c ∈ s := List.elem_iff.mp h
    constructor
    · exact fun hx => Or.inl hx
    · rintro (hx | rfl)
      · exact hx
      · exact hc
  · rw [if_neg h]
    simp [List.mem_append]

theorem mem_del {s : CardSet} {c x : Flashcard} :
    x ∈ del s c ↔ x ∈ s ∧ x ≠ c := by
  simp [del]

theorem not_mem_del {s : CardSet} {c : Flashcard} : c ∉ del s c := by
  simp [del]

theorem add_ne_nil {s : CardSet} {c : Flashcard} : add s c ≠ [] := by
  unfold add
  by_cases h : s.contains c = true
  · rw [if_pos h]
    intro hnil
    subst hnil
    exact absurd (List.elem_iff.mp h) (List.not_mem_nil c)
  · rw [if_neg h]
    simp

theorem has_iff_mem {s : CardSet} {c : Flashcard} :
    has s c = true ↔ c ∈ s :=
  List.elem_iff

end JsSet

section MapLemmas

variable {α β : Type} [DecidableEq α]

theorem mapGet_mapSet_self (m : List (α × β)) (k : α) (v : β) :
    mapGet (mapSet m k v) k = some v := by
  induction m with
  | nil => simp [mapSet, mapGet]
  | cons p rest ih =>
    by_cases h : p.1 = k
    · simp [mapSet, h, mapGet]
    · simp [mapSet, h, mapGet, ih]

theorem mapGet_mapSet_ne (m : List (α × β)) (k k' : α) (v : β) (hne : k' ≠ k) :
    mapGet (mapSet m k v) k' = mapGet m k' := by
  induction m with
  | nil =>
    simp only [mapSet, mapGet]
    rw [if_neg (fun h : k = k' => hne h.symm)]
  | cons p rest ih =>
    by_cases h : p.1 = k
    · subst h
      simp only [mapSet, if_pos rfl, mapGet]
      rw [if_neg (fun hc : p.1 = k' => hne hc.symm),
        if_neg (fun hc : p.1 = k' => hne hc.symm)]
    · simp only [mapSet, if_neg h, mapGet, ih]

theorem mapDelete_sublist (m : List (α × β)) (k : α) :
    (mapDelete m k).Sublist m := by
  induction m with
  | nil => simp [mapDelete]
  | cons p rest ih =>
    by_cases h : p.1 = k
    · simp only [mapDelete, h, if_pos]
      exact (List.sublist_cons_self p rest)
    · simp only [mapDelete, h, if_neg, not_false_iff]
      exact ih.cons₂ p

theorem mem_mapDelete {m : List (α × β)} {k : α} {p : α × β}
    (h : p ∈ mapDelete m k) : p ∈ m :=
  (mapDelete_sublist m k).mem h

theorem mapGet_eq_none (m : List (α × β)) (k : α) (h : k ∉ m.map Prod.fst) :
    mapGet m k = none := by
  induction m with
  | nil => rfl
  | cons p rest ih =>
    simp only [List.map_cons, List.mem_cons] at h
    push_neg at h
    simp only [mapGet, if_neg (fun hc : p.1 = k => h.1 hc.symm)]
    exact ih h.2

theorem mapGet_mapDelete_ne (m : List (α × β)) (k k' : α) (hne : k' ≠ k) :
    mapGet (mapDelete m k) k' = mapGet m k' := by
  induction m with
  | nil => simp [mapDelete]
  | cons p rest ih =>
    by_cases h : p.1 = k
    · subst h
      rw [show mapDelete (p :: rest) p.1 = rest by simp [mapDelete]]
      simp only [mapGet]
      rw [if_neg (fun hc : p.1 = k' => hne hc.symm)]
    · simp only [mapDelete, if_neg h, mapGet, ih]

theorem mapGet_mapDelete_self (m : List (α × β)) (k : α)
    (hnd : (m.map Prod.fst).Nodup) :
    mapGet (mapDelete m k) k = none := by
  induction m with
  | nil => rfl
  | cons p rest ih =>
    simp only [List.map_cons, List.nodup_cons] at hnd
    by_cases h : p.1 = k
    · simp only [mapDelete, if_pos h]
      exact mapGet_eq_none rest k (h ▸ hnd.1)
    · simp only [mapDelete, if_neg h, mapGet, if_neg h]
      exact ih hnd.2

theorem mem_mapSet {m : List (α × β)} {k : α} {v : β} {p : α × β}
    (h : p ∈ mapSet m k v) : p = (k, v) ∨ p ∈ m := by
  induction m with
  | nil => simp [mapSet] at h; simp [h]
  | cons q rest ih =>
    by_cases hq : q.1 = k
    · simp only [mapSet, if_pos hq, List.mem_cons] at h
      rcases h with h | h
      · exact Or.inl h
      · exact Or.inr (List.mem_cons_of_mem q h)
    · simp only [mapSet, if_neg hq, List.mem_cons] at h
      rcases h with h | h
      · exact Or.inr (by simp [h])
      · rcases ih h with h2 | h2
        · exact Or.inl h2
        · exact Or.inr (List.mem_cons_of_mem q h2)

theorem keys_mapSet_of_mem (m : List (α × β)) (k : α) (v : β)
    (h : k ∈ m.map Prod.fst) :
    (mapSet m k v).map Prod.fst = m.map Prod.fst := by
  induction m with
  | nil => simp at h
  | cons p rest ih =>
    by_cases hp : p.1 = k
    · simp [mapSet, hp]
    · have : k ∈ rest.map Prod.fst := by
        simp only [List.map_cons, List.mem_cons] at h
        rcases h with h | h
        · exact absurd h.symm hp
        · exact h
      simp [mapSet, hp, ih this]

theorem keys_mapSet_of_not_mem (m : List (α × β)) (k : α) (v : β)
    (h : k ∉ m.map Prod.fst) :
    (mapSet m k v).map Prod.fst = m.map Prod.fst ++ [k] := by
  induction m with
  | nil => simp [mapSet]
  | cons p rest ih =>
    simp only [List.map_cons, List.mem_cons] at h
    push_neg at h
    simp only [mapSet, if_neg (fun hc : p.1 = k => h.1 hc.symm), List.map_cons,
      ih h.2, List.cons_append]

theorem nodup_keys_mapSet (m : List (α × β)) (k : α) (v : β)
    (hnd : (m.map Prod.fst).Nodup) :
    ((mapSet m k v).map Prod.fst).Nodup := by
  by_cases h : k ∈ m.map Prod.fst
  · rw [keys_mapSet_of_mem m k v h]
    exact hnd
  · rw [keys_mapSet_of_not_mem m k v h]
    simp [List.nodup_append, hnd, h]

theorem nodup_keys_mapDelete (m : List (α × β)) (k : α)
    (hnd : (m.map Prod.fst).Nodup) :
    ((mapDelete m k).map Prod.fst).Nodup :=
  hnd.sublist ((mapDelete_sublist m k).map Prod.fst)

theorem mapGet_mem {m : List (α × β)} {k : α} {v : β}
    (h : mapGet m k = some v) : (k, v) ∈ m := by
  induction m with
  | nil => simp [mapGet] at h
  | cons p rest ih =>
    by_cases hp : p.1 = k
    · simp only [mapGet, if_pos hp, Option.some.injEq] at h
      have : (k, v) = p := by
        obtain ⟨p1, p2⟩ := p
        simp only at hp h
        rw [hp, h]
      rw [this]
      exact List.mem_cons_self p rest
    · simp only [mapGet, if_neg hp] at h
      exact List.mem_cons_of_mem p (ih h)

theorem mem_mapGet {m : List (α × β)} {p : α × β}
    (hnd : (m.map Prod.fst).Nodup) (h : p ∈ m) :
    mapGet m p.1 = some p.2 := by
  induction m with
  | nil => simp at h
  | cons q rest ih =>
    simp only [List.map_cons, List.nodup_cons] at hnd
    rcases List.mem_cons.mp h with h | h
    · subst h
      simp [mapGet]
    · have : q.1 ≠ p.1 := by
        intro hc
        exact hnd.1 (hc ▸ List.mem_map_of_mem Prod.fst h)
      simp only [mapGet, if_neg this]
      exact ih hnd.2 h

theorem mapGet_isSome_iff {m : List (α × β)} {k : α} :
    (mapGet m k).isSome ↔ k ∈ m.map Prod.fst := by
  induction m with
  | nil => simp [mapGet]
  | cons p rest ih =>
    by_cases hp : p.1 = k
    · simp [mapGet, hp]
    · simp only [mapGet, if_neg hp, List.map_cons, List.mem_cons]
      rw [ih]
      constructor
      · exact fun h => Or.inr h
      · rintro (h | h)
        · exact absurd h.symm hp
        · exact h

end MapLemmas

theorem findCurrentBucket_eq_none {m : BucketMap} {c : Flashcard}
    (h : ∀ p ∈ m, c ∉ p.2) : findCurrentBucket m c = none := by
  induction m with
  | nil => rfl
  | cons p rest ih =>
    have hp : ¬JsSet.has p.2 c = true := fun hc =>
      h p (List.mem_cons_self p rest) (JsSet.has_iff_mem.mp hc)
    simp only [findCurrentBucket, if_neg hp]
    exact ih (fun q hq => h q (List.mem_cons_of_mem p hq))

theorem findCurrentBucket_eq_some {m : BucketMap} {c : Flashcard} {b : Nat}
    (h : findCurrentBucket m c = some b) : ∃ s, (b, s) ∈ m ∧ c ∈ s := by
  induction m with
  | nil => simp [findCurrentBucket] at h
  | cons p rest ih =>
    by_cases hp : JsSet.has p.2 c = true
    · simp only [findCurrentBucket, if_pos hp, Option.some.injEq] at h
      exact ⟨p.2, by simp [← h], JsSet.has_iff_mem.mp hp⟩
    · simp only [findCurrentBucket, if_neg hp] at h
      obtain ⟨s, hs, hcs⟩ := ih h
      exact ⟨s, List.mem_cons_of_mem p hs, hcs⟩

theorem findCurrentBucket_unique {m : BucketMap} {c : Flashcard} {b : Nat}
    (hex : ∃ p ∈ m, c ∈ p.2) (huniq : ∀ p ∈ m, c ∈ p.2 → p.1 = b) :
    findCurrentBucket m c = some b := by
  induction m with
  | nil => simp at hex
  | cons p rest ih =>
    by_cases hp : JsSet.has p.2 c = true
    · simp only [findCurrentBucket, if_pos hp, Option.some.injEq]
      exact huniq p (List.mem_cons_self p rest) (JsSet.has_iff_mem.mp hp)
    · simp only [findCurrentBucket, if_neg hp]
      have hnot : c ∉ p.2 := fun hc => hp (JsSet.has_iff_mem.mpr hc)
      obtain ⟨q, hq, hcq⟩ := hex
      rcases List.mem_cons.mp hq with h | h
      · exact absurd (h ▸ hcq) hnot
      · exact ih ⟨q, h, hcq⟩ (fun q hq hcq => huniq q (List.mem_cons_of_mem p hq) hcq)

/-! ### Characterization of `update` -/

theorem update_eq_of_not_found {m : BucketMap} {card : Flashcard}
    {d : AnswerDifficulty} (h : findCurrentBucket m card = none) :
    update m card d = m := by
  simp only [update, h]

theorem update_eq_of_found {m : BucketMap} {card : Flashcard}
    {d : AnswerDifficulty} {b : Nat} {s : CardSet}
    (hfound : findCurrentBucket m card = some b) (hs : mapGet m b = some s) :
    update m card d =
      mapSet
        (if (JsSet.del s card).length = 0 then mapDelete m b
         else mapSet m b (JsSet.del s card))
        (destBucket b d)
        (JsSet.add
          ((mapGet
              (if (JsSet.del s card).length = 0 then mapDelete m b
               else mapSet m b (JsSet.del s card))
              (destBucket b d)).getD [])
          card) := by
  simp only [update, hfound, hs, Option.getD_some]

theorem update_m1_get {m : BucketMap} {card : Flashcard} {b : Nat} {s : CardSet}
    (hnd : (m.map Prod.fst).Nodup) (k : Nat) :
    mapGet
        (if (JsSet.del s card).length = 0 then mapDelete m b
         else mapSet m b (JsSet.del s card)) k =
      if k = b then
        (if JsSet.del s card = [] then none else some (JsSet.del s card))
      else mapGet m k := by
  by_cases hlen : (JsSet.del s card).length = 0
  · have hnil : JsSet.del s card = [] := List.length_eq_zero.mp hlen
    rw [if_pos hlen]
    by_cases hk : k = b
    · subst hk
      rw [if_pos rfl, if_pos hnil]
      exact mapGet_mapDelete_self m k hnd
    · rw [if_neg hk]
      exact mapGet_mapDelete_ne m b k hk
  · have hnil : ¬JsSet.del s card = [] := fun h => hlen (by rw [h]; rfl)
    rw [if_neg hlen]
    by_cases hk : k = b
    · subst hk
      rw [if_pos rfl, if_neg hnil]
      exact mapGet_mapSet_self m k (JsSet.del s card)
    · rw [if_neg hk]
      exact mapGet_mapSet_ne m b k (JsSet.del s card) hk

theorem update_found_get_ne {m : BucketMap} {card : Flashcard}
    {d : AnswerDifficulty} {b : Nat} {s : CardSet}
    (hnd : (m.map Prod.fst).Nodup)
    (hfound : findCurrentBucket m card = some b) (hs : mapGet m b = some s)
    (k : Nat) (hk : k ≠ destBucket b d) :
    mapGet (update m card d) k =
      if k = b then
        (if JsSet.del s card = [] then none else some (JsSet.del s card))
      else mapGet m k := by
  rw [update_eq_of_found hfound hs,
    mapGet_mapSet_ne _ (destBucket b d) k _ hk]
  exact update_m1_get hnd k

theorem update_found_get_dest {m : BucketMap} {card : Flashcard}
    {d : AnswerDifficulty} {b : Nat} {s : CardSet}
    (hnd : (m.map Prod.fst).Nodup)
    (hfound : findCurrentBucket m card = some b) (hs : mapGet m b = some s) :
    mapGet (update m card d) (destBucket b d) =
      some (JsSet.add
        ((if destBucket b d = b then
            (if JsSet.del s card = [] then none else some (JsSet.del s card))
          else mapGet m (destBucket b d)).getD [])
        card) := by
  rw [update_eq_of_found hfound hs, mapGet_mapSet_self, update_m1_get hnd]

theorem nodup_keys_update (m : BucketMap) (card : Flashcard)
    (d : AnswerDifficulty) (hnd : (m.map Prod.fst).Nodup) :
    ((update m card d).map Prod.fst).Nodup := by
  unfold update
  cases hfound : findCurrentBucket m card with
  | none => exact hnd
  | some b =>
    simp only []
    apply nodup_keys_mapSet
    by_cases hlen : (JsSet.del ((mapGet m b).getD []) card).length = 0
    · rw [if_pos hlen]
      exact nodup_keys_mapDelete m b hnd
    · rw [if_neg hlen]
      exact nodup_keys_mapSet m b _ hnd

/-- C7: if the card is in none of the buckets' sets, `update` returns a map
structurally equal to the input (in this purely functional model of the
returned value, literally the input association list), with no error path. -/
theorem update_unknown_card_noop (m : BucketMap) (card : Flashcard)
    (d : AnswerDifficulty) (h : ∀ p ∈ m, card ∉ p.2) :
    update m card d = m :=
  update_eq_of_not_found (findCurrentBucket_eq_none h)

theorem update_unknown_card_noop_witness :
    (∀ p ∈ ([(2, [⟨5, []⟩])] : BucketMap), (⟨9, []⟩ : Flashcard) ∉ p.2) ∧
      update [(2, [⟨5, []⟩])] ⟨9, []⟩ .Easy = [(2, [⟨5, []⟩])] :=
  ⟨by decide, update_unknown_card_noop [(2, [⟨5, []⟩])] ⟨9, []⟩ .Easy (by decide)⟩

/-- C6: `update` preserves the no-empty-buckets invariant: if every stored
key of the input maps to a non-empty set, so does every stored key of the
result (an emptied source bucket is deleted rather than kept empty). -/
theorem update_preserves_no_empty_buckets (m : BucketMap) (card : Flashcard)
    (d : AnswerDifficulty) (h : ∀ p ∈ m, p.2 ≠ []) :
    ∀ p ∈ update m card d, p.2 ≠ [] := by
  unfold update
  cases hfound : findCurrentBucket m card with
  | none => exact h
  | some b =>
    simp only []
    intro p hp
    rcases mem_mapSet hp with hpe | hp1
    · rw [hpe]
      exact JsSet.add_ne_nil
    · by_cases hlen : (JsSet.del ((mapGet m b).getD []) card).length = 0
      · rw [if_pos hlen] at hp1
        exact h p (mem_mapDelete hp1)
      · rw [if_neg hlen] at hp1
        rcases mem_mapSet hp1 with hpe2 | hpm
        · rw [hpe2]
          intro hc
          simp only at hc
          exact hlen (by rw [hc]; rfl)
        · exact h p hpm

theorem update_preserves_no_empty_buckets_witness :
    (∀ p ∈ ([(3, [⟨4, []⟩])] : BucketMap), p.2 ≠ []) ∧
      (∀ p ∈ update [(3, [⟨4, []⟩])] ⟨4, []⟩ .Hard, p.2 ≠ []) ∧
      update [(3, [⟨4, []⟩])] ⟨4, []⟩ .Hard = [(2, [⟨4, []⟩])] :=
  ⟨by decide,
    update_preserves_no_empty_buckets [(3, [⟨4, []⟩])] ⟨4, []⟩ .Hard (by decide),
    by decide⟩

theorem destBucket_eq_spec (b : Nat) (d : AnswerDifficulty) :
    destBucket b d =
      (match d with
       | .Easy => b + 1
       | .Hard => max 0 (b - 1)
       | .Wrong => 0) := by
  cases d <;> simp [destBucket]

theorem update_card_at_dest {m : BucketMap} {card : Flashcard}
    {d : AnswerDifficulty} {b : Nat} {s : CardSet}
    (hnd : (m.map Prod.fst).Nodup)
    (hfound : findCurrentBucket m card = some b) (hs : mapGet m b = some s) :
    ∃ t, mapGet (update m card d) (destBucket b d) = some t ∧ card ∈ t := by
  rw [update_found_get_dest hnd hfound hs]
  exact ⟨_, rfl, JsSet.mem_add.mpr (Or.inr rfl)⟩

theorem update_card_only_dest {m : BucketMap} {card : Flashcard}
    {d : AnswerDifficulty} {b : Nat} {s : CardSet}
    (hnd : (m.map Prod.fst).Nodup)
    (hfound : findCurrentBucket m card = some b) (hs : mapGet m b = some s)
    (huniq : ∀ p ∈ m, card ∈ p.2 → p.1 = b) :
    ∀ p ∈ update m card d, card ∈ p.2 → p.1 = destBucket b d := by
  intro p hp hcp
  by_contra hne
  have hget : mapGet (update m card d) p.1 = some p.2 :=
    mem_mapGet (nodup_keys_update m card d hnd) hp
  rw [update_found_get_ne hnd hfound hs p.1 hne] at hget
  by_cases hb : p.1 = b
  · rw [if_pos hb] at hget
    by_cases hnil : JsSet.del s card = []
    · rw [if_pos hnil] at hget
      exact Option.noConfusion hget
    · rw [if_neg hnil] at hget
      have : p.2 = JsSet.del s card := (Option.some.injEq _ _).mp hget.symm
      exact JsSet.not_mem_del (this ▸ hcp)
  · rw [if_neg hb] at hget
    exact hb (huniq (p.1, p.2) (mapGet_mem hget) hcp)

theorem update_other_card_iff {m : BucketMap} {card : Flashcard}
    {d : AnswerDifficulty} {b : Nat} {s : CardSet}
    (hnd : (m.map Prod.fst).Nodup)
    (hfound : findCurrentBucket m card = some b) (hs : mapGet m b = some s)
    {c : Flashcard} (hc : c ≠ card) (k : Nat) :
    (∃ t, mapGet (update m card d) k = some t ∧ c ∈ t) ↔
      (∃ t, mapGet m k = some t ∧ c ∈ t) := by
  have hdel : ∀ (hnil : JsSet.del s card = []), c ∈ s → False := by
    intro hnil hcs
    have : c ∈ JsSet.del s card := JsSet.mem_del.mpr ⟨hcs, hc⟩
    rw [hnil] at this
    exact List.not_mem_nil c this
  by_cases hk : k = destBucket b d
  · subst hk
    rw [update_found_get_dest hnd hfound hs]
    constructor
    · rintro ⟨t, ht, hct⟩
      rw [← Option.some.inj ht] at hct
      rcases JsSet.mem_add.mp hct with hcX | hceq
      · by_cases hb : destBucket b d = b
        · rw [if_pos hb] at hcX
          by_cases hnil : JsSet.del s card = []
          · rw [if_pos hnil] at hcX
            exact absurd hcX (List.not_mem_nil c)
          · rw [if_neg hnil] at hcX
            simp only [Option.getD_some] at hcX
            exact ⟨s, by rw [hb]; exact hs, (JsSet.mem_del.mp hcX).1⟩
        · rw [if_neg hb] at hcX
          cases hg : mapGet m (destBucket b d) with
          | none =>
            rw [hg] at hcX
            exact absurd hcX (List.not_mem_nil c)
          | some t2 =>
            rw [hg] at hcX
            exact ⟨t2, rfl, hcX⟩
      · exact absurd hceq hc
    · rintro ⟨t, ht, hct⟩
      refine ⟨_, rfl, JsSet.mem_add.mpr (Or.inl ?_)⟩
      by_cases hb : destBucket b d = b
      · rw [if_pos hb]
        have hts : t = s := by
          rw [hb] at ht
          rw [ht] at hs
          exact (Option.some.injEq _ _).mp hs
        rw [hts] at hct
        by_cases hnil : JsSet.del s card = []
        · exact absurd hct (fun hcs => hdel hnil hcs)
        · rw [if_neg hnil]
          simp only [Option.getD_some]
          exact JsSet.mem_del.mpr ⟨hct, hc⟩
      · rw [if_neg hb, ht]
        exact hct
  · rw [update_found_get_ne hnd hfound hs k hk]
    by_cases hb : k = b
    · subst hb
      rw [if_pos rfl]
      constructor
      · rintro ⟨t, ht, hct⟩
        by_cases hnil : JsSet.del s card = []
        · rw [if_pos hnil] at ht
          exact Option.noConfusion ht
        · rw [if_neg hnil] at ht
          rw [← Option.some.inj ht] at hct
          exact ⟨s, hs, (JsSet.mem_del.mp hct).1⟩
      · rintro ⟨t, ht, hct⟩
        have hts : t = s := by
          rw [ht] at hs
          exact (Option.some.injEq _ _).mp hs
        rw [hts] at hct
        by_cases hnil : JsSet.del s card = []
        · exact absurd hct (fun hcs => hdel hnil hcs)
        · rw [if_neg hnil]
          exact ⟨_, rfl, JsSet.mem_del.mpr ⟨hct, hc⟩⟩
    · rw [if_neg hb]

/-- C3: for a well-formed map in which the card sits in exactly bucket `b`,
`update` places the card in bucket `b+1` for Easy, `max(0, b-1)` for Hard and
`0` for Wrong, and in the returned map the card is a member of exactly that
destination bucket's set. -/
theorem update_destination (m : BucketMap) (card : Flashcard)
    (d : AnswerDifficulty) (b : Nat) (s : CardSet)
    (hnd : (m.map Prod.fst).Nodup)
    (hs : mapGet m b = some s) (hcs : card ∈ s)
    (huniq : ∀ p ∈ m, card ∈ p.2 → p.1 = b) :
    (∃ t, mapGet (update m card d)
        (match d with
         | .Easy => b + 1
         | .Hard => max 0 (b - 1)
         | .Wrong => 0) = some t ∧ card ∈ t)
    ∧ ∀ p ∈ update m card d, card ∈ p.2 →
        p.1 = (match d with
               | .Easy => b + 1
               | .Hard => max 0 (b - 1)
               | .Wrong => 0) := by
  rw [← destBucket_eq_spec b d]
  have hfound : findCurrentBucket m card = some b :=
    findCurrentBucket_unique ⟨(b, s), mapGet_mem hs, hcs⟩ huniq
  exact ⟨update_card_at_dest hnd hfound hs,
    update_card_only_dest hnd hfound hs huniq⟩

theorem update_destination_witness :
    (mapGet ([(1, [⟨3, []⟩])] : BucketMap) 1 = some [⟨3, []⟩] ∧
      (⟨3, []⟩ : Flashcard) ∈ ([⟨3, []⟩] : CardSet)) ∧
    (∃ t, mapGet (update [(1, [⟨3, []⟩])] ⟨3, []⟩ .Easy) 2 = some t ∧
        (⟨3, []⟩ : Flashcard) ∈ t) ∧
    ∀ p ∈ update [(1, [⟨3, []⟩])] ⟨3, []⟩ .Easy,
      (⟨3, []⟩ : Flashcard) ∈ p.2 → p.1 = 2 := by
  refine ⟨⟨by decide, by decide⟩, ?_⟩
  have h := update_destination [(1, [⟨3, []⟩])] ⟨3, []⟩ .Easy 1 [⟨3, []⟩]
    (by decide) (by decide) (by decide) (by decide)
  exact h

/-- C10: `update` neither loses nor duplicates cards on a well-formed map
(unique keys, each card in at most one bucket): the union of the result's
sets has the same members as the union of the input's sets, every card other
than the updated one stays in exactly the bucket it was in, and in the result
every card is still in at most one bucket. -/
theorem update_conserves_cards (m : BucketMap) (card : Flashcard)
    (d : AnswerDifficulty)
    (hnd : (m.map Prod.fst).Nodup)
    (hone : ∀ p ∈ m, ∀ q ∈ m, ∀ c ∈ p.2, c ∈ q.2 → p.1 = q.1) :
    (∀ c : Flashcard, (∃ p ∈ update m card d, c ∈ p.2) ↔ (∃ p ∈ m, c ∈ p.2))
    ∧ (∀ c : Flashcard, c ≠ card → ∀ k : Nat,
        (∃ t, mapGet (update m card d) k = some t ∧ c ∈ t) ↔
          (∃ t, mapGet m k = some t ∧ c ∈ t))
    ∧ ∀ p ∈ update m card d, ∀ q ∈ update m card d, ∀ c ∈ p.2,
        c ∈ q.2 → p.1 = q.1 := by
  cases hfound : findCurrentBucket m card with
  | none =>
    rw [update_eq_of_not_found hfound]
    exact ⟨fun c => Iff.rfl, fun c _ k => Iff.rfl, hone⟩
  | some b =>
    obtain ⟨s, hbs, hcs⟩ := findCurrentBucket_eq_some hfound
    have hs : mapGet m b = some s := mem_mapGet hnd hbs
    have huniq : ∀ p ∈ m, card ∈ p.2 → p.1 = b := fun p hp hcp =>
      hone p hp (b, s) hbs card hcp hcs
    have hndu := nodup_keys_update m card d hnd
    have hii : ∀ c : Flashcard, c ≠ card → ∀ k : Nat,
        (∃ t, mapGet (update m card d) k = some t ∧ c ∈ t) ↔
          (∃ t, mapGet m k = some t ∧ c ∈ t) :=
      fun c hc k => update_other_card_iff hnd hfound hs hc k
    refine ⟨?_, hii, ?_⟩
    · intro c
      by_cases hc : c = card
      · subst hc
        constructor
        · intro _
          exact ⟨(b, s), hbs, hcs⟩
        · intro _
          obtain ⟨t, ht, hct⟩ := update_card_at_dest (d := d) hnd hfound hs
          exact ⟨(destBucket b d, t), mapGet_mem ht, hct⟩
      · constructor
        · rintro ⟨p, hp, hcp⟩
          obtain ⟨t, ht, hct⟩ := (hii c hc p.1).mp
            ⟨p.2, mem_mapGet hndu hp, hcp⟩
          exact ⟨(p.1, t), mapGet_mem ht, hct⟩
        · rintro ⟨p, hp, hcp⟩
          obtain ⟨t, ht, hct⟩ := (hii c hc p.1).mpr
            ⟨p.2, mem_mapGet hnd hp, hcp⟩
          exact ⟨(p.1, t), mapGet_mem ht, hct⟩
    · intro p hp q hq c hcp hcq
      by_cases hc : c = card
      · subst hc
        rw [update_card_only_dest hnd hfound hs huniq p hp hcp,
          update_card_only_dest hnd hfound hs huniq q hq hcq]
      · obtain ⟨t, ht, hct⟩ := (hii c hc p.1).mp ⟨p.2, mem_mapGet hndu hp, hcp⟩
        obtain ⟨t2, ht2, hct2⟩ := (hii c hc q.1).mp ⟨q.2, mem_mapGet hndu hq, hcq⟩
        exact hone (p.1, t) (mapGet_mem ht) (q.1, t2) (mapGet_mem ht2) c hct hct2

theorem update_conserves_cards_witness :
    ((([(0, [⟨1, []⟩]), (1, [⟨2, []⟩])] : BucketMap).map Prod.fst).Nodup ∧
      ∀ p ∈ ([(0, [⟨1, []⟩]), (1, [⟨2, []⟩])] : BucketMap),
        ∀ q ∈ ([(0, [⟨1, []⟩]), (1, [⟨2, []⟩])] : BucketMap),
          ∀ c ∈ p.2, c ∈ q.2 → p.1 = q.1) ∧
    ((∀ c : Flashcard,
        (∃ p ∈ update [(0, [⟨1, []⟩]), (1, [⟨2, []⟩])] ⟨1, []⟩ .Easy, c ∈ p.2) ↔
          (∃ p ∈ ([(0, [⟨1, []⟩]), (1, [⟨2, []⟩])] : BucketMap), c ∈ p.2))
    ∧ (∀ c : Flashcard, c ≠ ⟨1, []⟩ → ∀ k : Nat,
        (∃ t, mapGet (update [(0, [⟨1, []⟩]), (1, [⟨2, []⟩])] ⟨1, []⟩ .Easy) k =
            some t ∧ c ∈ t) ↔
          (∃ t, mapGet ([(0, [⟨1, []⟩]), (1, [⟨2, []⟩])] : BucketMap) k =
            some t ∧ c ∈ t))
    ∧ ∀ p ∈ update [(0, [⟨1, []⟩]), (1, [⟨2, []⟩])] ⟨1, []⟩ .Easy,
        ∀ q ∈ update [(0, [⟨1, []⟩]), (1, [⟨2, []⟩])] ⟨1, []⟩ .Easy,
          ∀ c ∈ p.2, c ∈ q.2 → p.1 = q.1) :=
  ⟨⟨by decide, by decide⟩,
    update_conserves_cards [(0, [⟨1, []⟩]), (1, [⟨2, []⟩])] ⟨1, []⟩ .Easy
      (by decide) (by decide)⟩

/-- C1 (code bug): `update` does *not* leave the caller's nested sets
unchanged.  `new Map(buckets)` is a shallow copy, so `currentCards.delete`
and `newCards.add` mutate set objects the caller's map still references.
First scenario: caller map `{0 ↦ set#0}` with `set#0 = {card 7}`; after
`update(_, card 7, Easy)` the caller's map still maps `0` to `set#0`, but
`set#0` has lost its member.  Second scenario: with destination set `set#1`
already present, the card is appended to the caller's `set#1` as well. -/
theorem update_mutates_caller_sets :
    ((updateImpl ⟨[[⟨7, []⟩]]⟩ [(0, 0)] ⟨7, []⟩ .Easy).1.get 0 = [] ∧
      (⟨[[⟨7, []⟩]]⟩ : SetHeap).get 0 = [⟨7, []⟩]) ∧
    ((updateImpl ⟨[[⟨7, []⟩], [⟨8, []⟩]]⟩ [(0, 0), (1, 1)] ⟨7, []⟩ .Easy).1.get 1 =
        [⟨8, []⟩, ⟨7, []⟩] ∧
      (⟨[[⟨7, []⟩], [⟨8, []⟩]]⟩ : SetHeap).get 1 = [⟨8, []⟩]) := by
  decide

/-- C2 (code bug): `toBucketSets` of the empty map is `[∅]`, an array of
length 1 holding a single empty set — not the empty array required by the
spec and by the repository's own test
(`assert.deepStrictEqual(toBucketSets(new Map()), [])`): `lastbucket` starts
at 0 even when no key exists, so the fill loop still creates index 0. -/
theorem toBucketSets_empty_map_bug :
    toBucketSets ([] : BucketMap) = [[]] ∧
      (toBucketSets ([] : BucketMap)).length = 1 := by
  decide

/-- C8: the hint has the same length as the card's front text, its first
`ceil(len/2)` characters are the front's characters, the remaining
`len - ceil(len/2)` characters are all underscores, the empty front gives
the empty hint, and a one-character front is returned fully revealed. -/
theorem getHint_spec (card : Flashcard) :
    (getHint card).length = card.front.length
    ∧ (getHint card).take ((card.front.length + 1) / 2) =
        card.front.take ((card.front.length + 1) / 2)
    ∧ (getHint card).drop ((card.front.length + 1) / 2) =
        List.replicate (card.front.length - (card.front.length + 1) / 2) '_'
    ∧ (card.front = [] → getHint card = [])
    ∧ ∀ ch : Char, card.front = [ch] → getHint card = [ch] := by
  by_cases h0 : card.front.length = 0
  · have hnil : card.front = [] := List.length_eq_zero.mp h0
    simp [getHint, h0, hnil]
  · have hpos : 1 ≤ card.front.length := Nat.one_le_iff_ne_zero.mpr h0
    have hhalf : (card.front.length + 1) / 2 ≤ card.front.length := by omega
    have htake : (card.front.take ((card.front.length + 1) / 2)).length =
        (card.front.length + 1) / 2 := by
      rw [List.length_take]
      omega
    constructor
    · simp only [getHint, if_neg h0, List.length_append, List.length_replicate,
        htake]
      omega
    constructor
    · simp only [getHint, if_neg h0]
      rw [List.take_left' htake]
    constructor
    · simp only [getHint, if_neg h0]
      rw [List.drop_left' htake]
    constructor
    · intro hnil
      rw [hnil] at h0
      exact absurd rfl h0
    · intro ch hch
      have hlen : card.front.length = 1 := by rw [hch]; rfl
      simp [getHint, hlen, hch]

theorem getHint_spec_witness :
    ((getHint ⟨0, ['A', 'B', 'C']⟩).length = (['A', 'B', 'C'] : List Char).length
    ∧ (getHint ⟨0, ['A', 'B', 'C']⟩).take (((['A', 'B', 'C'] : List Char).length + 1) / 2) =
        (['A', 'B', 'C'] : List Char).take (((['A', 'B', 'C'] : List Char).length + 1) / 2)
    ∧ (getHint ⟨0, ['A', 'B', 'C']⟩).drop (((['A', 'B', 'C'] : List Char).length + 1) / 2) =
        List.replicate ((['A', 'B', 'C'] : List Char).length -
          ((['A', 'B', 'C'] : List Char).length + 1) / 2) '_'
    ∧ ((['A', 'B', 'C'] : List Char) = [] → getHint ⟨0, ['A', 'B', 'C']⟩ = [])
    ∧ ∀ ch : Char, (['A', 'B', 'C'] : List Char) = [ch] →
        getHint ⟨0, ['A', 'B', 'C']⟩ = [ch])
    ∧ getHint ⟨0, ['A', 'B', 'C']⟩ = ['A', 'B', '_'] :=
  ⟨getHint_spec ⟨0, ['A', 'B', 'C']⟩, by decide⟩

/-! ### `toBucketSets` on non-empty maps -/

theorem lastbucket_foldl_le {m : BucketMap} {L : Nat} (acc : Nat)
    (hacc : acc ≤ L) (h : ∀ p ∈ m, p.1 ≤ L) :
    m.foldl (fun acc p => if p.1 ≥ acc then p.1 else acc) acc ≤ L := by
  induction m generalizing acc with
  | nil => exact hacc
  | cons p rest ih =>
    simp only [List.foldl_cons]
    apply ih
    · by_cases hp : p.1 ≥ acc
      · rw [if_pos hp]
        exact h p (List.mem_cons_self p rest)
      · rw [if_neg hp]
        exact hacc
    · exact fun q hq => h q (List.mem_cons_of_mem p hq)

theorem lastbucket_foldl_init_le (m : BucketMap) (acc : Nat) :
    acc ≤ m.foldl (fun acc p => if p.1 ≥ acc then p.1 else acc) acc := by
  induction m generalizing acc with
  | nil => exact Nat.le_refl acc
  | cons p rest ih =>
    simp only [List.foldl_cons]
    refine Nat.le_trans ?_ (ih _)
    by_cases hp : p.1 ≥ acc
    · rw [if_pos hp]
      exact hp
    · rw [if_neg hp]

theorem le_lastbucket_foldl {m : BucketMap} {p : Nat × CardSet} (acc : Nat)
    (h : p ∈ m) :
    p.1 ≤ m.foldl (fun acc p => if p.1 ≥ acc then p.1 else acc) acc := by
  induction m generalizing acc with
  | nil => simp at h
  | cons q rest ih =>
    simp only [List.foldl_cons]
    rcases List.mem_cons.mp h with rfl | h
    · refine Nat.le_trans ?_ (lastbucket_foldl_init_le rest _)
      by_cases hp : p.1 ≥ acc
      · rw [if_pos hp]
      · rw [if_neg hp]
        exact Nat.le_of_lt (Nat.lt_of_not_le hp)
    · exact ih _ h

theorem lastbucket_eq_max {m : BucketMap} {L : Nat}
    (hmem : L ∈ m.map Prod.fst) (hmax : ∀ p ∈ m, p.1 ≤ L) :
    lastbucket m = L := by
  obtain ⟨p, hp, hpL⟩ := List.mem_map.mp hmem
  apply Nat.le_antisymm
  · exact lastbucket_foldl_le 0 (Nat.zero_le L) hmax
  · rw [← hpL]
    exact le_lastbucket_foldl 0 hp

theorem foldl_set_length (m : BucketMap) (arr : List CardSet) :
    (m.foldl (fun a p => a.set p.1 p.2) arr).length = arr.length := by
  induction m generalizing arr with
  | nil => rfl
  | cons p rest ih =>
    simp only [List.foldl_cons]
    rw [ih, List.length_set]

theorem foldl_set_getD (m : BucketMap) (arr : List CardSet) (i : Nat)
    (hnd : (m.map Prod.fst).Nodup) (hi : i < arr.length) :
    (m.foldl (fun a p => a.set p.1 p.2) arr).getD i [] =
      (mapGet m i).getD (arr.getD i []) := by
  induction m generalizing arr with
  | nil => rfl
  | cons p rest ih =>
    simp only [List.map_cons, List.nodup_cons] at hnd
    simp only [List.foldl_cons]
    rw [ih (arr.set p.1 p.2) hnd.2 (by rw [List.length_set]; exact hi)]
    by_cases hp : p.1 = i
    · subst hp
      rw [show mapGet (p :: rest) p.1 = some p.2 by simp [mapGet]]
      rw [mapGet_eq_none rest p.1 hnd.1]
      simp only [Option.getD_some, Option.getD_none]
      rw [List.getD_eq_getElem?_getD, List.getElem?_set_self (by exact hi)]
      rfl
    · rw [show mapGet (p :: rest) i = mapGet rest i by simp [mapGet, hp]]
      congr 1
      rw [List.getD_eq_getElem?_getD, List.getD_eq_getElem?_getD,
        List.getElem?_set_ne hp]

/-- C5: on a non-empty well-formed map whose maximum key is `L`,
`toBucketSets` returns an array of length exactly `L + 1` whose index `i`
holds the input's set for bucket `i` when present and the empty set
otherwise; no entries exist above index `L`. -/
theorem toBucketSets_nonempty_spec (m : BucketMap) (L : Nat)
    (hnd : (m.map Prod.fst).Nodup)
    (hmem : L ∈ m.map Prod.fst) (hmax : ∀ p ∈ m, p.1 ≤ L) :
    (toBucketSets m).length = L + 1
    ∧ ∀ i : Nat, i ≤ L →
        (toBucketSets m).getD i [] = (mapGet m i).getD [] := by
  have hlast : lastbucket m = L := lastbucket_eq_max hmem hmax
  constructor
  · rw [toBucketSets, foldl_set_length, List.length_replicate, hlast]
  · intro i hi
    rw [toBucketSets, foldl_set_getD m _ i hnd
      (by rw [List.length_replicate, hlast]; omega)]
    congr 1
    rw [List.getD_eq_getElem?_getD, List.getElem?_replicate]
    rw [if_pos (by rw [hlast]; omega)]
    rfl

theorem toBucketSets_nonempty_spec_witness :
    ((([(2, [⟨1, []⟩]), (0, [⟨2, []⟩])] : BucketMap).map Prod.fst).Nodup ∧
      2 ∈ (([(2, [⟨1, []⟩]), (0, [⟨2, []⟩])] : BucketMap).map Prod.fst) ∧
      ∀ p ∈ ([(2, [⟨1, []⟩]), (0, [⟨2, []⟩])] : BucketMap), p.1 ≤ 2) ∧
    ((toBucketSets [(2, [⟨1, []⟩]), (0, [⟨2, []⟩])]).length = 2 + 1
    ∧ ∀ i : Nat, i ≤ 2 →
        (toBucketSets [(2, [⟨1, []⟩]), (0, [⟨2, []⟩])]).getD i [] =
          (mapGet ([(2, [⟨1, []⟩]), (0, [⟨2, []⟩])] : BucketMap) i).getD []) :=
  ⟨⟨by decide, by decide, by decide⟩,
    toBucketSets_nonempty_spec [(2, [⟨1, []⟩]), (0, [⟨2, []⟩])] 2
      (by decide) (by decide) (by decide)⟩

/-! ### `practice` -/

theorem mem_foldl_add (l : CardSet) (acc : CardSet) (c : Flashcard) :
    c ∈ l.foldl (fun a x => JsSet.add a x) acc ↔ c ∈ acc ∨ c ∈ l := by
  induction l generalizing acc with
  | nil => simp
  | cons x rest ih =>
    simp only [List.foldl_cons, ih, JsSet.mem_add, List.mem_cons]
    constructor
    · rintro ((h | h) | h)
      · exact Or.inl h
      · exact Or.inr (Or.inl h)
      · exact Or.inr (Or.inr h)
    · rintro (h | (h | h))
      · exact Or.inl (Or.inl h)
      · exact Or.inl (Or.inr h)
      · exact Or.inr h

theorem mem_practice_foldl (buckets : List CardSet) (day : Nat)
    (is : List Nat) (acc : CardSet) (c : Flashcard) :
    c ∈ is.foldl
        (fun acc i =>
          if (day + 1) % 2 ^ i = 0 then
            (buckets.getD i []).foldl (fun a x => JsSet.add a x) acc
          else acc)
        acc ↔
      c ∈ acc ∨ ∃ i ∈ is, (day + 1) % 2 ^ i = 0 ∧ c ∈ buckets.getD i [] := by
  induction is generalizing acc with
  | nil => simp
  | cons i rest ih =>
    simp only [List.foldl_cons]
    by_cases hc : (day + 1) % 2 ^ i = 0
    · rw [if_pos hc, ih, mem_foldl_add]
      constructor
      · rintro ((h | h) | ⟨j, hj, hcond, hmem⟩)
        · exact Or.inl h
        · exact Or.inr ⟨i, List.mem_cons_self i rest, hc, h⟩
        · exact Or.inr ⟨j, List.mem_cons_of_mem i hj, hcond, hmem⟩
      · rintro (h | ⟨j, hj, hcond, hmem⟩)
        · exact Or.inl (Or.inl h)
        · rcases List.mem_cons.mp hj with rfl | hj
          · exact Or.inl (Or.inr hmem)
          · exact Or.inr ⟨j, hj, hcond, hmem⟩
    · rw [if_neg hc, ih]
      constructor
      · rintro (h | ⟨j, hj, hcond, hmem⟩)
        · exact Or.inl h
        · exact Or.inr ⟨j, List.mem_cons_of_mem i hj, hcond, hmem⟩
      · rintro (h | ⟨j, hj, hcond, hmem⟩)
        · exact Or.inl h
        · rcases List.mem_cons.mp hj with rfl | hj
          · exact absurd hcond hc
          · exact Or.inr ⟨j, hj, hcond, hmem⟩

/-- C4: `practice` returns exactly the union of the buckets at indices `i`
with `(day + 1) % 2^i = 0` and nothing else; on day 0 it is exactly bucket
0's contents, and an empty or all-empty array gives an empty result for
every day. -/
theorem practice_spec (buckets : List CardSet) (day : Nat) :
    (∀ c : Flashcard,
        c ∈ practice buckets day ↔
          ∃ i : Nat, i < buckets.length ∧ (day + 1) % 2 ^ i = 0 ∧
            c ∈ buckets.getD i [])
    ∧ (∀ c : Flashcard, c ∈ practice buckets 0 ↔ c ∈ buckets.getD 0 [])
    ∧ ((∀ s ∈ buckets, s = []) → practice buckets day = []) := by
  have hmain : ∀ (d : Nat) (c : Flashcard),
      c ∈ practice buckets d ↔
        ∃ i : Nat, i < buckets.length ∧ (d + 1) % 2 ^ i = 0 ∧
          c ∈ buckets.getD i [] := by
    intro d c
    rw [practice]
    rw [mem_practice_foldl buckets d (List.range buckets.length) [] c]
    simp only [List.not_mem_nil, false_or, List.mem_range]
  refine ⟨hmain day, ?_, ?_⟩
  · intro c
    rw [hmain 0 c]
    constructor
    · rintro ⟨i, hi, hcond, hmem⟩
      have : i = 0 := by
        by_contra hne
        have h2 : 2 ≤ 2 ^ i := by
          calc 2 = 2 ^ 1 := rfl
          _ ≤ 2 ^ i := Nat.pow_le_pow_right (by omega) (by omega)
        have h1 : (0 + 1) % 2 ^ i = 0 + 1 := Nat.mod_eq_of_lt (by omega)
        omega
      rw [← this]
      exact hmem
    · intro hmem
      by_cases hlen : 0 < buckets.length
      · exact ⟨0, hlen, by simp, hmem⟩
      · have : buckets = [] := List.length_eq_zero.mp (by omega)
        rw [this] at hmem
        exact absurd hmem (List.not_mem_nil c)
  · intro hempty
    have : ∀ (is : List Nat),
        is.foldl
          (fun acc i =>
            if (day + 1) % 2 ^ i = 0 then
              (buckets.getD i []).foldl (fun a x => JsSet.add a x) acc
            else acc)
          [] = [] := by
      intro is
      induction is with
      | nil => rfl
      | cons i rest ih =>
        simp only [List.foldl_cons]
        have hgetD : buckets.getD i [] = [] := by
          by_cases hi : i < buckets.length
          · have heq : buckets.getD i [] = buckets[i] := by
              rw [List.getD_eq_getElem?_getD, List.getElem?_eq_getElem hi]
              rfl
            rw [heq]
            exact hempty _ (List.getElem_mem hi)
          · rw [List.getD_eq_getElem?_getD, List.getElem?_eq_none (by omega)]
            rfl
        by_cases hc : (day + 1) % 2 ^ i = 0
        · rw [if_pos hc, hgetD]
          exact ih
        · rw [if_neg hc]
          exact ih
    exact this (List.range buckets.length)

theorem practice_spec_witness :
    ((∀ c : Flashcard,
        c ∈ practice [[⟨1, []⟩], [⟨2, []⟩], [⟨3, []⟩]] 3 ↔
          ∃ i : Nat, i < ([[⟨1, []⟩], [⟨2, []⟩], [⟨3, []⟩]] : List CardSet).length ∧
            (3 + 1) % 2 ^ i = 0 ∧
            c ∈ ([[⟨1, []⟩], [⟨2, []⟩], [⟨3, []⟩]] : List CardSet).getD i [])
    ∧ (∀ c : Flashcard,
        c ∈ practice [[⟨1, []⟩], [⟨2, []⟩], [⟨3, []⟩]] 0 ↔
          c ∈ ([[⟨1, []⟩], [⟨2, []⟩], [⟨3, []⟩]] : List CardSet).getD 0 [])
    ∧ ((∀ s ∈ ([[⟨1, []⟩], [⟨2, []⟩], [⟨3, []⟩]] : List CardSet), s = []) →
        practice [[⟨1, []⟩], [⟨2, []⟩], [⟨3, []⟩]] 3 = []))
    ∧ practice [[⟨1, []⟩], [⟨2, []⟩], [⟨3, []⟩]] 3 = [⟨1, []⟩, ⟨2, []⟩, ⟨3, []⟩]
    ∧ practice [[⟨1, []⟩], [⟨2, []⟩], [⟨3, []⟩]] 2 = [⟨1, []⟩] :=
  ⟨practice_spec [[⟨1, []⟩], [⟨2, []⟩], [⟨3, []⟩]] 3, by decide, by decide⟩

/-! ### `computeProgress`: lemmas about the counting fold -/

theorem findIdx_append_eq {α : Type} (p : α → Bool) (l1 l2 : List α) :
    (l1 ++ l2).findIdx p =
      if l1.findIdx p < l1.length then l1.findIdx p
      else l1.length + l2.findIdx p := by
  induction l1 with
  | nil => simp
  | cons a rest ih =>
    simp only [List.cons_append, List.findIdx_cons]
    cases hpa : p a with
    | true =>
      simp only [cond_true]
      rw [if_pos (by simp [List.length_cons])]
    | false =>
      simp only [cond_false]
      rw [ih]
      by_cases h : rest.findIdx p < rest.length
      · rw [if_pos h, if_pos (by simp only [List.length_cons]; omega)]
      · rw [if_neg h, if_neg (by simp only [List.length_cons]; omega)]
        simp only [List.length_cons]
        omega

theorem wrongCountOf_append (c : Flashcard) (h : List HistoryEntry)
    (e : HistoryEntry) :
    wrongCountOf c (h ++ [e]) =
      wrongCountOf c h + (if isWrongFor c e then 1 else 0) := by
  unfold wrongCountOf
  rw [List.countP_append, List.countP_singleton]

theorem wrongCountOf_pos_iff (c : Flashcard) (h : List HistoryEntry) :
    0 < wrongCountOf c h ↔ ∃ e ∈ h, isWrongFor c e := by
  unfold wrongCountOf
  exact List.countP_pos_iff

theorem firstWrongIdx_lt_length (c : Flashcard) (h : List HistoryEntry)
    (hw : 0 < wrongCountOf c h) : firstWrongIdx c h < h.length := by
  unfold firstWrongIdx
  exact List.findIdx_lt_length.mpr ((wrongCountOf_pos_iff c h).mp hw)

theorem firstWrongIdx_append_of_pos (c : Flashcard) (h : List HistoryEntry)
    (l2 : List HistoryEntry) (hw : 0 < wrongCountOf c h) :
    firstWrongIdx c (h ++ l2) = firstWrongIdx c h := by
  unfold firstWrongIdx
  rw [findIdx_append_eq]
  exact if_pos (firstWrongIdx_lt_length c h hw)

theorem firstWrongIdx_append_self (c : Flashcard) (h : List HistoryEntry)
    (e : HistoryEntry) (hw : wrongCountOf c h = 0) (he : isWrongFor c e) :
    firstWrongIdx c (h ++ [e]) = h.length := by
  unfold firstWrongIdx
  rw [findIdx_append_eq]
  have hnl : ¬h.findIdx (isWrongFor c) < h.length := by
    intro hlt
    have : 0 < wrongCountOf c h :=
      (wrongCountOf_pos_iff c h).mpr (List.findIdx_lt_length.mp hlt)
    omega
  rw [if_neg hnl]
  simp [List.findIdx_cons, he]

theorem wrongCounts_append (h : List HistoryEntry) (e : HistoryEntry) :
    wrongCounts (h ++ [e]) =
      if e.difficulty = .Wrong then
        mapSet (wrongCounts h) e.card ((mapGet (wrongCounts h) e.card).getD 0 + 1)
      else wrongCounts h := by
  unfold wrongCounts
  rw [List.foldl_append]
  simp only [List.foldl_cons, List.foldl_nil]

theorem mapSet_eq_append_of_not_mem {α β : Type} [DecidableEq α]
    (m : List (α × β)) (k : α) (v : β) (h : k ∉ m.map Prod.fst) :
    mapSet m k v = m ++ [(k, v)] := by
  induction m with
  | nil => rfl
  | cons p rest ih =>
    simp only [List.map_cons, List.mem_cons] at h
    push_neg at h
    simp only [mapSet, if_neg (fun hc : p.1 = k => h.1 hc.symm),
      List.cons_append, List.cons.injEq, true_and]
    exact ih h.2

/-- Invariant of the `wrongCounts` accumulation: looking a card up gives its
Wrong-count in the history (absent iff zero), and the entries are ordered by
the index of the card's first Wrong judgment. -/
theorem wrongCounts_invariant (history : List HistoryEntry) :
    (∀ c : Flashcard, mapGet (wrongCounts history) c =
        (if 0 < wrongCountOf c history then some (wrongCountOf c history)
         else none))
    ∧ (wrongCounts history).Pairwise
        (fun a b => firstWrongIdx a.1 history < firstWrongIdx b.1 history) := by
  induction history using List.reverseRecOn with
  | nil =>
    constructor
    · intro c
      simp [wrongCounts, wrongCountOf, mapGet]
    · simp [wrongCounts]
  | append_singleton h e ih =>
    obtain ⟨ih1, ih3⟩ := ih
    have hkeypos : ∀ a ∈ (wrongCounts h).map Prod.fst, 0 < wrongCountOf a h := by
      intro a ha
      have hsome := mapGet_isSome_iff.mpr ha
      rw [ih1 a] at hsome
      by_cases h0 : 0 < wrongCountOf a h
      · exact h0
      · rw [if_neg h0] at hsome
        simp at hsome
    have hfwi_stable : ∀ a ∈ (wrongCounts h).map Prod.fst,
        firstWrongIdx a (h ++ [e]) = firstWrongIdx a h := fun a ha =>
      firstWrongIdx_append_of_pos a h [e] (hkeypos a ha)
    rw [wrongCounts_append]
    by_cases hW : e.difficulty = .Wrong
    · rw [if_pos hW]
      have hwrongself : isWrongFor e.card e = true := by
        simp [isWrongFor, hW]
      by_cases hpos : 0 < wrongCountOf e.card h
      · -- the card already has a Wrong entry: its count is bumped in place
        have hget : mapGet (wrongCounts h) e.card =
            some (wrongCountOf e.card h) := by
          rw [ih1 e.card, if_pos hpos]
        have hkeys : (mapSet (wrongCounts h) e.card
              ((mapGet (wrongCounts h) e.card).getD 0 + 1)).map Prod.fst =
            (wrongCounts h).map Prod.fst :=
          keys_mapSet_of_mem _ _ _
            (mapGet_isSome_iff.mp (by rw [hget]; rfl))
        constructor
        · intro c
          by_cases hc : c = e.card
          · subst hc
            rw [mapGet_mapSet_self, hget]
            simp only [Option.getD_some]
            rw [wrongCountOf_append, if_pos hwrongself,
              if_pos (by omega)]
          · rw [mapGet_mapSet_ne _ _ _ _ hc, ih1 c]
            have : isWrongFor c e = false := by
              simp only [isWrongFor, decide_eq_false_iff_not]
              rintro ⟨hcard, _⟩
              exact hc (hcard ▸ rfl)
            rw [wrongCountOf_append, this]
            simp
        · have hold : List.Pairwise
              (fun x y : Flashcard =>
                firstWrongIdx x (h ++ [e]) < firstWrongIdx y (h ++ [e]))
              ((wrongCounts h).map Prod.fst) := by
            have base : List.Pairwise
                (fun x y : Flashcard => firstWrongIdx x h < firstWrongIdx y h)
                ((wrongCounts h).map Prod.fst) := List.pairwise_map.mpr ih3
            refine List.Pairwise.imp_of_mem ?_ base
            intro a b ha hb hab
            rw [hfwi_stable a ha, hfwi_stable b hb]
            exact hab
          have hpair_keys : List.Pairwise
              (fun x y : Flashcard =>
                firstWrongIdx x (h ++ [e]) < firstWrongIdx y (h ++ [e]))
              ((mapSet (wrongCounts h) e.card
                ((mapGet (wrongCounts h) e.card).getD 0 + 1)).map Prod.fst) := by
            rw [hkeys]
            exact hold
          exact (@List.pairwise_map _ _ Prod.fst
            (fun x y => firstWrongIdx x (h ++ [e]) < firstWrongIdx y (h ++ [e]))
            _).mp hpair_keys
      · -- first Wrong for this card: a fresh entry is appended at the end
        have hzero : wrongCountOf e.card h = 0 := by omega
        have hget : mapGet (wrongCounts h) e.card = none := by
          rw [ih1 e.card, if_neg hpos]
        have hnotmem : e.card ∉ (wrongCounts h).map Prod.fst := by
          intro hmem
          have := mapGet_isSome_iff.mpr hmem
          rw [hget] at this
          simp at this
        have happend : mapSet (wrongCounts h) e.card
              ((mapGet (wrongCounts h) e.card).getD 0 + 1) =
            wrongCounts h ++ [(e.card, 1)] := by
          rw [hget]
          simp only [Option.getD_none]
          exact mapSet_eq_append_of_not_mem _ _ _ hnotmem
        constructor
        · intro c
          by_cases hc : c = e.card
          · subst hc
            rw [mapGet_mapSet_self]
            rw [hget]
            simp only [Option.getD_none]
            rw [wrongCountOf_append, if_pos hwrongself, hzero]
            simp
          · rw [mapGet_mapSet_ne _ _ _ _ hc, ih1 c]
            have : isWrongFor c e = false := by
              simp only [isWrongFor, decide_eq_false_iff_not]
              rintro ⟨hcard, _⟩
              exact hc (hcard ▸ rfl)
            rw [wrongCountOf_append, this]
            simp
        · rw [happend]
          rw [List.pairwise_append]
          refine ⟨?_, List.pairwise_singleton _ _, ?_⟩
          · refine List.Pairwise.imp_of_mem ?_ ih3
            intro a b ha hb hab
            rw [hfwi_stable a.1 (List.mem_map_of_mem Prod.fst ha),
              hfwi_stable b.1 (List.mem_map_of_mem Prod.fst hb)]
            exact hab
          · intro a ha b hb
            rw [List.mem_singleton] at hb
            subst hb
            rw [hfwi_stable a.1 (List.mem_map_of_mem Prod.fst ha)]
            simp only []
            rw [firstWrongIdx_append_self e.card h e hzero hwrongself]
            exact Nat.lt_of_lt_of_le
              (firstWrongIdx_lt_length a.1 h
                (hkeypos a.1 (List.mem_map_of_mem Prod.fst ha)))
              (Nat.le_refl h.length)
    · rw [if_neg hW]
      have hnotwrong : ∀ c : Flashcard, isWrongFor c e = false := by
        intro c
        simp only [isWrongFor, decide_eq_false_iff_not]
        rintro ⟨_, hd⟩
        exact hW hd
      constructor
      · intro c
        rw [ih1 c, wrongCountOf_append, hnotwrong c]
        simp
      · refine List.Pairwise.imp_of_mem ?_ ih3
        intro a b ha hb hab
        rw [hfwi_stable a.1 (List.mem_map_of_mem Prod.fst ha),
          hfwi_stable b.1 (List.mem_map_of_mem Prod.fst hb)]
        exact hab

/-! ### The stable descending sort used for `hardestCards` -/

theorem mem_insertDesc {p q : Flashcard × Nat} {l : List (Flashcard × Nat)} :
    q ∈ insertDesc p l ↔ q = p ∨ q ∈ l := by
  induction l with
  | nil => simp [insertDesc]
  | cons r rest ih =>
    by_cases h : r.2 ≥ p.2
    · simp only [insertDesc, if_pos h, List.mem_cons, ih]
      constructor
      · rintro (h2 | (h2 | h2))
        · exact Or.inr (Or.inl h2)
        · exact Or.inl h2
        · exact Or.inr (Or.inr h2)
      · rintro (h2 | (h2 | h2))
        · exact Or.inr (Or.inl h2)
        · exact Or.inl h2
        · exact Or.inr (Or.inr h2)
    · simp only [insertDesc, if_neg h, List.mem_cons]

theorem insertDesc_perm (p : Flashcard × Nat) (l : List (Flashcard × Nat)) :
    (insertDesc p l).Perm (p :: l) := by
  induction l with
  | nil => exact List.Perm.refl _
  | cons r rest ih =>
    by_cases h : r.2 ≥ p.2
    · simp only [insertDesc, if_pos h]
      exact (ih.cons r).trans (List.Perm.swap p r rest)
    · simp only [insertDesc, if_neg h]
      exact List.Perm.refl _

theorem foldl_insertDesc_perm (l acc : List (Flashcard × Nat)) :
    (l.foldl (fun a p => insertDesc p a) acc).Perm (acc ++ l) := by
  induction l generalizing acc with
  | nil => simp
  | cons p rest ih =>
    simp only [List.foldl_cons]
    refine (ih (insertDesc p acc)).trans ?_
    have h1 : (insertDesc p acc ++ rest).Perm ((p :: acc) ++ rest) :=
      (insertDesc_perm p acc).append_right rest
    refine h1.trans ?_
    simp only [List.cons_append]
    exact (List.perm_middle).symm

theorem sortDesc_perm (l : List (Flashcard × Nat)) : (sortDesc l).Perm l := by
  have := foldl_insertDesc_perm l []
  simpa [sortDesc] using this

theorem pairwise_insertDesc (Q : (Flashcard × Nat) → (Flashcard × Nat) → Prop)
    (p : Flashcard × Nat) (acc : List (Flashcard × Nat))
    (hacc : acc.Pairwise (fun a b => b.2 < a.2 ∨ (a.2 = b.2 ∧ Q a b)))
    (hQ : ∀ a ∈ acc, Q a p) :
    (insertDesc p acc).Pairwise
      (fun a b => b.2 < a.2 ∨ (a.2 = b.2 ∧ Q a b)) := by
  induction acc with
  | nil => simp [insertDesc]
  | cons q rest ih =>
    rcases List.pairwise_cons.mp hacc with ⟨hq, hrest⟩
    by_cases h : q.2 ≥ p.2
    · simp only [insertDesc, if_pos h]
      refine List.pairwise_cons.mpr ⟨?_, ih hrest
        (fun a ha => hQ a (List.mem_cons_of_mem q ha))⟩
      intro r hr
      rcases mem_insertDesc.mp hr with rfl | hr2
      · rcases Nat.lt_or_ge r.2 q.2 with hlt | hge
        · exact Or.inl hlt
        · have : q.2 = r.2 := by omega
          exact Or.inr ⟨this, hQ q (List.mem_cons_self q rest)⟩
      · exact hq r hr2
    · simp only [insertDesc, if_neg h]
      refine List.pairwise_cons.mpr ⟨?_, hacc⟩
      intro r hr
      rcases List.mem_cons.mp hr with rfl | hr2
      · exact Or.inl (by omega)
      · rcases hq r hr2 with h2 | h2
        · exact Or.inl (by omega)
        · exact Or.inl (by omega)

theorem pairwise_foldl_insertDesc
    (Q : (Flashcard × Nat) → (Flashcard × Nat) → Prop) :
    ∀ l acc : List (Flashcard × Nat),
      l.Pairwise Q →
      acc.Pairwise (fun a b => b.2 < a.2 ∨ (a.2 = b.2 ∧ Q a b)) →
      (∀ a ∈ acc, ∀ b ∈ l, Q a b) →
      (l.foldl (fun a p => insertDesc p a) acc).Pairwise
        (fun a b => b.2 < a.2 ∨ (a.2 = b.2 ∧ Q a b)) := by
  intro l
  induction l with
  | nil => exact fun acc _ hacc _ => hacc
  | cons p rest ih =>
    intro acc hl hacc hcross
    rcases List.pairwise_cons.mp hl with ⟨hp, hrest⟩
    simp only [List.foldl_cons]
    refine ih (insertDesc p acc) hrest
      (pairwise_insertDesc Q p acc hacc
        (fun a ha => hcross a ha p (List.mem_cons_self p rest))) ?_
    intro a ha b hb
    rcases mem_insertDesc.mp ha with rfl | ha2
    · exact hp b hb
    · exact hcross a ha2 b (List.mem_cons_of_mem p hb)

theorem pairwise_sortDesc (Q : (Flashcard × Nat) → (Flashcard × Nat) → Prop)
    (l : List (Flashcard × Nat)) (hl : l.Pairwise Q) :
    (sortDesc l).Pairwise (fun a b => b.2 < a.2 ∨ (a.2 = b.2 ∧ Q a b)) :=
  pairwise_foldl_insertDesc Q l [] hl (List.Pairwise.nil) (by simp)

/-! ### `computeProgress`: assembling the report -/

theorem counts_foldl_gen :
    ∀ (m : BucketMap) (n : Nat) (acc : List (Nat × Nat)),
      (m.map Prod.fst).Nodup →
      (∀ p ∈ m, p.1 ∉ acc.map Prod.fst) →
      m.foldl (fun acc p => (acc.1 + p.2.length, mapSet acc.2 p.1 p.2.length))
        (n, acc) =
        (n + (m.map (fun p => p.2.length)).sum,
          acc ++ m.map (fun p => (p.1, p.2.length))) := by
  intro m
  induction m with
  | nil => simp
  | cons p rest ih =>
    intro n acc hnd hfresh
    simp only [List.map_cons, List.nodup_cons] at hnd
    simp only [List.foldl_cons]
    rw [mapSet_eq_append_of_not_mem acc p.1 p.2.length
      (hfresh p (List.mem_cons_self p rest))]
    rw [ih (n + p.2.length) (acc ++ [(p.1, p.2.length)]) hnd.2 ?_]
    · simp only [List.map_cons, List.sum_cons, List.append_assoc,
        List.singleton_append, Prod.mk.injEq]
      constructor
      · omega
      · trivial
    · intro q hq
      simp only [List.map_append, List.mem_append, List.map_cons,
        List.map_nil, List.mem_singleton]
      rintro (hmem | hqp)
      · exact hfresh q (List.mem_cons_of_mem p hq) hmem
      · exact hnd.1 (hqp ▸ List.mem_map_of_mem Prod.fst hq)

theorem success_foldl :
    ∀ (h : List HistoryEntry) (n : Nat),
      h.foldl
        (fun n e =>
          if e.difficulty = .Easy ∨ e.difficulty = .Hard then n + 1 else n)
        n =
        n + h.countP (fun e => decide (e.difficulty ≠ AnswerDifficulty.Wrong)) := by
  intro h
  induction h with
  | nil => simp
  | cons e rest ih =>
    intro n
    rw [List.foldl_cons, ih, List.countP_cons]
    cases hd : e.difficulty <;> simp [hd] <;> omega

theorem wrongCounts_key_iff (history : List HistoryEntry) (c : Flashcard) :
    c ∈ (wrongCounts history).map Prod.fst ↔ 0 < wrongCountOf c history := by
  rw [← mapGet_isSome_iff, (wrongCounts_invariant history).1 c]
  by_cases h : 0 < wrongCountOf c history
  · simp [h]
  · simp [h]

theorem wrongCounts_keys_nodup (history : List HistoryEntry) :
    ((wrongCounts history).map Prod.fst).Nodup := by
  have hpk : ((wrongCounts history).map Prod.fst).Pairwise
      (fun a b => firstWrongIdx a history < firstWrongIdx b history) :=
    List.pairwise_map.mpr (wrongCounts_invariant history).2
  refine hpk.imp ?_
  intro a b hlt heq
  rw [heq] at hlt
  exact Nat.lt_irrefl _ hlt

theorem wrongCounts_val {history : List HistoryEntry} {p : Flashcard × Nat}
    (hp : p ∈ wrongCounts history) : p.2 = wrongCountOf p.1 history := by
  have hget := mem_mapGet (wrongCounts_keys_nodup history) hp
  rw [(wrongCounts_invariant history).1 p.1] at hget
  by_cases h : 0 < wrongCountOf p.1 history
  · rw [if_pos h] at hget
    exact (Option.some.inj hget).symm
  · rw [if_neg h] at hget
    exact absurd hget (by simp)

theorem computeProgress_totalCards (buckets : BucketMap)
    (history : List HistoryEntry) :
    (computeProgress buckets history).totalCards =
      (buckets.foldl
        (fun acc p => (acc.1 + p.2.length, mapSet acc.2 p.1 p.2.length))
        ((0 : Nat), ([] : List (Nat × Nat)))).1 := rfl

theorem computeProgress_cardsByBucket (buckets : BucketMap)
    (history : List HistoryEntry) :
    (computeProgress buckets history).cardsByBucket =
      (buckets.foldl
        (fun acc p => (acc.1 + p.2.length, mapSet acc.2 p.1 p.2.length))
        ((0 : Nat), ([] : List (Nat × Nat)))).2 := rfl

theorem computeProgress_successRate (buckets : BucketMap)
    (history : List HistoryEntry) :
    (computeProgress buckets history).successRate =
      (if history.length > 0 then
        ((history.foldl
          (fun n e =>
            if e.difficulty = .Easy ∨ e.difficulty = .Hard then n + 1 else n)
          0 : Nat) : ℚ) / (history.length : ℚ)
      else 0) := by
  simp only [computeProgress]

theorem computeProgress_hardestCards (buckets : BucketMap)
    (history : List HistoryEntry) :
    (computeProgress buckets history).hardestCards =
      ((sortDesc (wrongCounts history)).take 3).map (fun p => p.1) := rfl

/-- C9 (amended): `computeProgress` reports `totalCards` as the sum of the
bucket set sizes, `cardsByBucket` as each stored bucket's size in bucket
order, `successRate` as the fraction of history entries judged Easy or Hard
(i.e. not Wrong) over all entries, 0 for an empty history, and
`hardestCards` as the cards with at least one Wrong judgment, in descending
Wrong-count order capped at 3 entries, with ties ordered by the position of
the card's first *Wrong* judgment in the history (amendment: the original
claim said ties follow the card's first occurrence of any kind, which the
code does not do — see the counterexample). -/
theorem computeProgress_report (buckets : BucketMap)
    (history : List HistoryEntry) (hnd : (buckets.map Prod.fst).Nodup) :
    (computeProgress buckets history).totalCards =
        (buckets.map (fun p => p.2.length)).sum
    ∧ (computeProgress buckets history).cardsByBucket =
        buckets.map (fun p => (p.1, p.2.length))
    ∧ (history = [] → (computeProgress buckets history).successRate = 0)
    ∧ (history ≠ [] → (computeProgress buckets history).successRate =
        (((history.filter
            (fun e => decide (e.difficulty ≠ AnswerDifficulty.Wrong))).length : ℚ) /
          (history.length : ℚ)))
    ∧ (computeProgress buckets history).hardestCards.length =
        min 3 (((history.filter
          (fun e => decide (e.difficulty = AnswerDifficulty.Wrong))).map
            (fun e => e.card)).toFinset.card)
    ∧ (∀ c ∈ (computeProgress buckets history).hardestCards,
        0 < wrongCountOf c history)
    ∧ (computeProgress buckets history).hardestCards.Pairwise
        (fun a b => wrongCountOf b history < wrongCountOf a history ∨
          (wrongCountOf a history = wrongCountOf b history ∧
            firstWrongIdx a history < firstWrongIdx b history))
    ∧ (∀ c : Flashcard, 0 < wrongCountOf c history →
        c ∉ (computeProgress buckets history).hardestCards →
        ∀ a ∈ (computeProgress buckets history).hardestCards,
          wrongCountOf c history < wrongCountOf a history ∨
            (wrongCountOf a history = wrongCountOf c history ∧
              firstWrongIdx a history < firstWrongIdx c history)) := by
  have hfold := counts_foldl_gen buckets 0 [] hnd (by simp)
  have hperm : (sortDesc (wrongCounts history)).Perm (wrongCounts history) :=
    sortDesc_perm _
  have hpair : (sortDesc (wrongCounts history)).Pairwise
      (fun a b => b.2 < a.2 ∨
        (a.2 = b.2 ∧ firstWrongIdx a.1 history < firstWrongIdx b.1 history)) :=
    pairwise_sortDesc _ _ (wrongCounts_invariant history).2
  have hval : ∀ p ∈ sortDesc (wrongCounts history),
      p.2 = wrongCountOf p.1 history :=
    fun p hp => wrongCounts_val (hperm.mem_iff.mp hp)
  refine ⟨?_, ?_, ?_, ?_, ?_, ?_, ?_, ?_⟩
  · rw [computeProgress_totalCards, hfold]
    simp
  · rw [computeProgress_cardsByBucket, hfold]
    simp
  · intro hnil
    subst hnil
    rw [computeProgress_successRate]
    simp
  · intro hne
    have hpos : 0 < history.length := List.length_pos.mpr hne
    rw [computeProgress_successRate, if_pos hpos, success_foldl history 0]
    rw [← List.countP_eq_length_filter]
    simp
  · rw [computeProgress_hardestCards, List.length_map, List.length_take]
    have hlen : (sortDesc (wrongCounts history)).length =
        ((history.filter
          (fun e => decide (e.difficulty = AnswerDifficulty.Wrong))).map
            (fun e => e.card)).toFinset.card := by
      rw [hperm.length_eq]
      have hset : ((wrongCounts history).map Prod.fst).toFinset =
          ((history.filter
            (fun e => decide (e.difficulty = AnswerDifficulty.Wrong))).map
              (fun e => e.card)).toFinset := by
        ext c
        rw [List.mem_toFinset, List.mem_toFinset, wrongCounts_key_iff history c,
          wrongCountOf_pos_iff]
        constructor
        · rintro ⟨e, he, hw⟩
          have hw2 : e.card = c ∧ e.difficulty = .Wrong := by
            simpa [isWrongFor] using hw
          exact List.mem_map.mpr
            ⟨e, List.mem_filter.mpr ⟨he, by simp [hw2.2]⟩, hw2.1⟩
        · intro hmem
          obtain ⟨e, hef, hec⟩ := List.mem_map.mp hmem
          obtain ⟨he, hd⟩ := List.mem_filter.mp hef
          refine ⟨e, he, ?_⟩
          simp only [isWrongFor, decide_eq_true_eq]
          exact ⟨hec, by simpa using hd⟩
      rw [← hset, List.toFinset_card_of_nodup (wrongCounts_keys_nodup history),
        List.length_map]
    rw [hlen]
  · intro c hc
    rw [computeProgress_hardestCards] at hc
    obtain ⟨p, hp, hpc⟩ := List.mem_map.mp hc
    have hp2 : p ∈ sortDesc (wrongCounts history) :=
      (List.take_sublist 3 _).subset hp
    have hkey : p.1 ∈ (wrongCounts history).map Prod.fst :=
      List.mem_map_of_mem Prod.fst (hperm.mem_iff.mp hp2)
    rw [← hpc]
    exact (wrongCounts_key_iff history p.1).mp hkey
  · rw [computeProgress_hardestCards]
    refine List.pairwise_map.mpr
      (List.Pairwise.imp_of_mem ?_
        (List.Pairwise.sublist (List.take_sublist 3 _) hpair))
    intro a b ha hb hr
    have hva := hval a ((List.take_sublist 3 _).subset ha)
    have hvb := hval b ((List.take_sublist 3 _).subset hb)
    rcases hr with h | h
    · exact Or.inl (by rw [← hva, ← hvb]; exact h)
    · exact Or.inr ⟨by rw [← hva, ← hvb]; exact h.1, h.2⟩
  · intro c hc hnot a ha
    rw [computeProgress_hardestCards] at hnot ha
    obtain ⟨pa, hpa, hpac⟩ := List.mem_map.mp ha
    have httd := List.take_append_drop 3 (sortDesc (wrongCounts history))
    have hc_key : c ∈ (wrongCounts history).map Prod.fst :=
      (wrongCounts_key_iff history c).mpr hc
    obtain ⟨pc, hpc_wc, hpcc⟩ := List.mem_map.mp hc_key
    have hpc_sorted : pc ∈ sortDesc (wrongCounts history) :=
      hperm.mem_iff.mpr hpc_wc
    have hpc_not_take : pc ∉ (sortDesc (wrongCounts history)).take 3 := by
      intro hmem
      apply hnot
      rw [← hpcc]
      exact List.mem_map_of_mem (fun p => p.1) hmem
    have hpc_drop : pc ∈ (sortDesc (wrongCounts history)).drop 3 := by
      have hmem := hpc_sorted
      rw [← httd] at hmem
      rcases List.mem_append.mp hmem with h | h
      · exact absurd h hpc_not_take
      · exact h
    have hcross := (List.pairwise_append.mp (by rw [httd]; exact hpair)).2.2
    have hr := hcross pa hpa pc hpc_drop
    have hva := hval pa ((List.take_sublist 3 _).subset hpa)
    have hvc : pc.2 = wrongCountOf c history := by
      rw [wrongCounts_val hpc_wc, hpcc]
    rcases hr with h | h
    · left
      rw [← hpac, ← hva, ← hvc]
      exact h
    · right
      constructor
      · rw [← hpac, ← hva, ← hvc]
        exact h.1
      · rw [← hpac, ← hpcc]
        exact h.2

/-- C9 counterexample to the tie-order part of the claim: with history
`[(card 1, Easy), (card 2, Wrong), (card 1, Wrong)]` the two cards tie at one
Wrong judgment each, and card 1's first occurrence in the history (index 0)
precedes card 2's (index 1) — yet `hardestCards` lists card 2 first, because
the implementation orders ties by the first *Wrong* judgment (card 2 at
index 1, before card 1's at index 2), not by the first occurrence. -/
theorem computeProgress_tie_order_counterexample :
    (computeProgress []
        [⟨⟨1, []⟩, .Easy⟩, ⟨⟨2, []⟩, .Wrong⟩, ⟨⟨1, []⟩, .Wrong⟩]).hardestCards =
      [⟨2, []⟩, ⟨1, []⟩]
    ∧ wrongCountOf ⟨1, []⟩
        [⟨⟨1, []⟩, .Easy⟩, ⟨⟨2, []⟩, .Wrong⟩, ⟨⟨1, []⟩, .Wrong⟩] =
      wrongCountOf ⟨2, []⟩
        [⟨⟨1, []⟩, .Easy⟩, ⟨⟨2, []⟩, .Wrong⟩, ⟨⟨1, []⟩, .Wrong⟩]
    ∧ firstOccurrenceIdx ⟨1, []⟩
        [⟨⟨1, []⟩, .Easy⟩, ⟨⟨2, []⟩, .Wrong⟩, ⟨⟨1, []⟩, .Wrong⟩] = 0
    ∧ firstOccurrenceIdx ⟨2, []⟩
        [⟨⟨1, []⟩, .Easy⟩, ⟨⟨2, []⟩, .Wrong⟩, ⟨⟨1, []⟩, .Wrong⟩] = 1 := by
  refine ⟨?_, by decide, by decide, by decide⟩
  rw [computeProgress_hardestCards]
  decide

theorem computeProgress_report_witness :
    ((([(0, [⟨1, []⟩]), (1, [⟨2, []⟩])] : BucketMap).map Prod.fst).Nodup) ∧
    ((computeProgress [(0, [⟨1, []⟩]), (1, [⟨2, []⟩])]
        [⟨⟨1, []⟩, .Easy⟩, ⟨⟨1, []⟩, .Wrong⟩, ⟨⟨2, []⟩, .Hard⟩,
          ⟨⟨2, []⟩, .Wrong⟩]).totalCards =
        (([(0, [⟨1, []⟩]), (1, [⟨2, []⟩])] : BucketMap).map
          (fun p => p.2.length)).sum
    ∧ (computeProgress [(0, [⟨1, []⟩]), (1, [⟨2, []⟩])]
        [⟨⟨1, []⟩, .Easy⟩, ⟨⟨1, []⟩, .Wrong⟩, ⟨⟨2, []⟩, .Hard⟩,
          ⟨⟨2, []⟩, .Wrong⟩]).cardsByBucket =
        ([(0, [⟨1, []⟩]), (1, [⟨2, []⟩])] : BucketMap).map
          (fun p => (p.1, p.2.length))
    ∧ (([⟨⟨1, []⟩, .Easy⟩, ⟨⟨1, []⟩, .Wrong⟩, ⟨⟨2, []⟩, .Hard⟩,
          ⟨⟨2, []⟩, .Wrong⟩] : List HistoryEntry) = [] →
        (computeProgress [(0, [⟨1, []⟩]), (1, [⟨2, []⟩])]
          [⟨⟨1, []⟩, .Easy⟩, ⟨⟨1, []⟩, .Wrong⟩, ⟨⟨2, []⟩, .Hard⟩,
            ⟨⟨2, []⟩, .Wrong⟩]).successRate = 0)
    ∧ (([⟨⟨1, []⟩, .Easy⟩, ⟨⟨1, []⟩, .Wrong⟩, ⟨⟨2, []⟩, .Hard⟩,
          ⟨⟨2, []⟩, .Wrong⟩] : List HistoryEntry) ≠ [] →
        (computeProgress [(0, [⟨1, []⟩]), (1, [⟨2, []⟩])]
          [⟨⟨1, []⟩, .Easy⟩, ⟨⟨1, []⟩, .Wrong⟩, ⟨⟨2, []⟩, .Hard⟩,
            ⟨⟨2, []⟩, .Wrong⟩]).successRate =
          (((([⟨⟨1, []⟩, .Easy⟩, ⟨⟨1, []⟩, .Wrong⟩, ⟨⟨2, []⟩, .Hard⟩,
              ⟨⟨2, []⟩, .Wrong⟩] : List HistoryEntry).filter
              (fun e => decide (e.difficulty ≠ AnswerDifficulty.Wrong))).length : ℚ) /
            ((([⟨⟨1, []⟩, .Easy⟩, ⟨⟨1, []⟩, .Wrong⟩, ⟨⟨2, []⟩, .Hard⟩,
              ⟨⟨2, []⟩, .Wrong⟩] : List HistoryEntry).length : ℚ))))
    ∧ (computeProgress [(0, [⟨1, []⟩]), (1, [⟨2, []⟩])]
        [⟨⟨1, []⟩, .Easy⟩, ⟨⟨1, []⟩, .Wrong⟩, ⟨⟨2, []⟩, .Hard⟩,
          ⟨⟨2, []⟩, .Wrong⟩]).hardestCards.length =
        min 3 (((([⟨⟨1, []⟩, .Easy⟩, ⟨⟨1, []⟩, .Wrong⟩, ⟨⟨2, []⟩, .Hard⟩,
          ⟨⟨2, []⟩, .Wrong⟩] : List HistoryEntry).filter
          (fun e => decide (e.difficulty = AnswerDifficulty.Wrong))).map
            (fun e => e.card)).toFinset.card)
    ∧ (∀ c ∈ (computeProgress [(0, [⟨1, []⟩]), (1, [⟨2, []⟩])]
        [⟨⟨1, []⟩, .Easy⟩, ⟨⟨1, []⟩, .Wrong⟩, ⟨⟨2, []⟩, .Hard⟩,
          ⟨⟨2, []⟩, .Wrong⟩]).hardestCards,
        0 < wrongCountOf c
          [⟨⟨1, []⟩, .Easy⟩, ⟨⟨1, []⟩, .Wrong⟩, ⟨⟨2, []⟩, .Hard⟩,
            ⟨⟨2, []⟩, .Wrong⟩])
    ∧ (computeProgress [(0, [⟨1, []⟩]), (1, [⟨2, []⟩])]
        [⟨⟨1, []⟩, .Easy⟩, ⟨⟨1, []⟩, .Wrong⟩, ⟨⟨2, []⟩, .Hard⟩,
          ⟨⟨2, []⟩, .Wrong⟩]).hardestCards.Pairwise
        (fun a b => wrongCountOf b
            [⟨⟨1, []⟩, .Easy⟩, ⟨⟨1, []⟩, .Wrong⟩, ⟨⟨2, []⟩, .Hard⟩,
              ⟨⟨2, []⟩, .Wrong⟩] <
            wrongCountOf a
            [⟨⟨1, []⟩, .Easy⟩, ⟨⟨1, []⟩, .Wrong⟩, ⟨⟨2, []⟩, .Hard⟩,
              ⟨⟨2, []⟩, .Wrong⟩] ∨
          (wrongCountOf a
              [⟨⟨1, []⟩, .Easy⟩, ⟨⟨1, []⟩, .Wrong⟩, ⟨⟨2, []⟩, .Hard⟩,
                ⟨⟨2, []⟩, .Wrong⟩] =
              wrongCountOf b
              [⟨⟨1, []⟩, .Easy⟩, ⟨⟨1, []⟩, .Wrong⟩, ⟨⟨2, []⟩, .Hard⟩,
                ⟨⟨2, []⟩, .Wrong⟩] ∧
            firstWrongIdx a
              [⟨⟨1, []⟩, .Easy⟩, ⟨⟨1, []⟩, .Wrong⟩, ⟨⟨2, []⟩, .Hard⟩,
                ⟨⟨2, []⟩, .Wrong⟩] <
              firstWrongIdx b
              [⟨⟨1, []⟩, .Easy⟩, ⟨⟨1, []⟩, .Wrong⟩, ⟨⟨2, []⟩, .Hard⟩,
                ⟨⟨2, []⟩, .Wrong⟩]))
    ∧ (∀ c : Flashcard, 0 < wrongCountOf c
          [⟨⟨1, []⟩, .Easy⟩, ⟨⟨1, []⟩, .Wrong⟩, ⟨⟨2, []⟩, .Hard⟩,
            ⟨⟨2, []⟩, .Wrong⟩] →
        c ∉ (computeProgress [(0, [⟨1, []⟩]), (1, [⟨2, []⟩])]
          [⟨⟨1, []⟩, .Easy⟩, ⟨⟨1, []⟩, .Wrong⟩, ⟨⟨2, []⟩, .Hard⟩,
            ⟨⟨2, []⟩, .Wrong⟩]).hardestCards →
        ∀ a ∈ (computeProgress [(0, [⟨1, []⟩]), (1, [⟨2, []⟩])]
          [⟨⟨1, []⟩, .Easy⟩, ⟨⟨1, []⟩, .Wrong⟩, ⟨⟨2, []⟩, .Hard⟩,
            ⟨⟨2, []⟩, .Wrong⟩]).hardestCards,
          wrongCountOf c
              [⟨⟨1, []⟩, .Easy⟩, ⟨⟨1, []⟩, .Wrong⟩, ⟨⟨2, []⟩, .Hard⟩,
                ⟨⟨2, []⟩, .Wrong⟩] <
              wrongCountOf a
              [⟨⟨1, []⟩, .Easy⟩, ⟨⟨1, []⟩, .Wrong⟩, ⟨⟨2, []⟩, .Hard⟩,
                ⟨⟨2, []⟩, .Wrong⟩] ∨
            (wrongCountOf a
                [⟨⟨1, []⟩, .Easy⟩, ⟨⟨1, []⟩, .Wrong⟩, ⟨⟨2, []⟩, .Hard⟩,
                  ⟨⟨2, []⟩, .Wrong⟩] =
                wrongCountOf c
                [⟨⟨1, []⟩, .Easy⟩, ⟨⟨1, []⟩, .Wrong⟩, ⟨⟨2, []⟩, .Hard⟩,
                  ⟨⟨2, []⟩, .Wrong⟩] ∧
              firstWrongIdx a
                [⟨⟨1, []⟩, .Easy⟩, ⟨⟨1, []⟩, .Wrong⟩, ⟨⟨2, []⟩, .Hard⟩,
                  ⟨⟨2, []⟩, .Wrong⟩] <
                firstWrongIdx c
                [⟨⟨1, []⟩, .Easy⟩, ⟨⟨1, []⟩, .Wrong⟩, ⟨⟨2, []⟩, .Hard⟩,
                  ⟨⟨2, []⟩, .Wrong⟩]))) :=
  ⟨by decide,
    computeProgress_report [(0, [⟨1, []⟩]), (1, [⟨2, []⟩])]
      [⟨⟨1, []⟩, .Easy⟩, ⟨⟨1, []⟩, .Wrong⟩, ⟨⟨2, []⟩, .Hard⟩,
        ⟨⟨2, []⟩, .Wrong⟩] (by decide)⟩

